import Mathlib

/-!
Verification of the AfriLingo repository (Spitch/Gemini service wrappers and
the spitch-proxy serverless function) against its natural-language
specification.  The TypeScript sources are shallowly embedded: strings are
Lean `String`s (lists of characters), JavaScript numbers appearing in scores
are modelled as exact rationals `ℚ`, fallible operations are modelled with
`Except`/`Option`, and browser/environment-dependent primitives that the
verified logic is parametric in (Unicode NFD normalization, `toLowerCase`,
the feedback text generator) are taken as explicit function parameters.
-/

namespace AfriLingo

/-! ### Levenshtein distance

`SpitchService.levenshteinDistance` (src/afrilingo/src/services/spitch.service.ts,
lines 446-472) fills a `(len2+1) × (len1+1)` matrix with
`matrix[i][0] = i`, `matrix[0][j] = j` and
`matrix[i][j] = matrix[i-1][j-1]` when `str2[i-1] = str1[j-1]`, else
`min (matrix[i-1][j-1]+1) (matrix[i][j-1]+1) (matrix[i-1][j]+1)`,
returning `matrix[str2.length][str1.length]`.  `levMat s1 s2 i j` is the
matrix entry `matrix[i][j]`. -/
def levMat (s1 s2 : List Char) : ℕ → ℕ → ℕ
  | 0, j => j
  | i + 1, 0 => i + 1
  | i + 1, j + 1 =>
    if s2.getD i ' ' = s1.getD j ' ' then
      levMat s1 s2 i j
    else
      min (min (levMat s1 s2 i j + 1) (levMat s1 s2 (i + 1) j + 1))
        (levMat s1 s2 i (j + 1) + 1)
termination_by i j => i + j

/-- Embedding of `SpitchService.levenshteinDistance(str1, str2)`: the bottom
right corner `matrix[str2.length][str1.length]` of the dynamic-programming
matrix. -/
def levenshteinDistance (str1 str2 : String) : ℕ :=
  levMat str1.data str2.data str2.data.length str1.data.length

/-- Reference (specification-side) Levenshtein recursion on lists of
characters, peeling from the head. -/
def lev : List Char → List Char → ℕ
  | [], ys => ys.length
  | xs, [] => xs.length
  | x :: xs, y :: ys =>
    if x = y then lev xs ys
    else 1 + min (lev xs ys) (min (lev (x :: xs) ys) (lev xs (y :: ys)))
termination_by xs ys => xs.length + ys.length

/-- Cost-`n` alignments between two character lists: `Edits xs ys n` holds
when `xs` can be turned into `ys` by an alignment using `n` single-character
substitutions, deletions and insertions (matched characters are free). -/
inductive Edits : List Char → List Char → ℕ → Prop
  | nil : Edits [] [] 0
  | keep (a : Char) {xs ys n} : Edits xs ys n → Edits (a :: xs) (a :: ys) n
  | subst (a b : Char) {xs ys n} : Edits xs ys n → Edits (a :: xs) (b :: ys) (n + 1)
  | delete (a : Char) {xs ys n} : Edits xs ys n → Edits (a :: xs) ys (n + 1)
  | insert (b : Char) {xs ys n} : Edits xs ys n → Edits xs (b :: ys) (n + 1)

/-- A single edit operation applied at an arbitrary position of a string:
insertion, deletion or substitution of one character.  This is the literal
"single-character insertions, deletions, and substitutions" reading of the
specification. -/
def EStep (xs ys : List Char) : Prop :=
  (∃ l r b, xs = l ++ r ∧ ys = l ++ b :: r) ∨
  (∃ l r a, xs = l ++ a :: r ∧ ys = l ++ r) ∨
  (∃ l r a b, xs = l ++ a :: r ∧ ys = l ++ b :: r)

/-- Relation `NSteps n xs ys`: `xs` is transformed into `ys` by a sequence of exactly
`n` single-character edit operations.  The minimum `n` for which this holds
is the standard Levenshtein edit distance. -/
inductive NSteps : ℕ → List Char → List Char → Prop
  | zero (xs : List Char) : NSteps 0 xs xs
  | succ {xs ys zs n} : EStep xs ys → NSteps n ys zs → NSteps (n + 1) xs zs

/-! ### JavaScript string primitives used by the scoring code -/

/-- The character class `\s` of JavaScript regular expressions
(ECMA-262 WhiteSpace ∪ LineTerminator). -/
def isJsWhitespace (c : Char) : Bool :=
  decide (c.toNat = 9) || decide (c.toNat = 10) || decide (c.toNat = 11) ||
  decide (c.toNat = 12) || decide (c.toNat = 13) || decide (c.toNat = 32) ||
  decide (c.toNat = 0xa0) || decide (c.toNat = 0x1680) ||
  (decide (0x2000 ≤ c.toNat) && decide (c.toNat ≤ 0x200a)) ||
  decide (c.toNat = 0x2028) || decide (c.toNat = 0x2029) ||
  decide (c.toNat = 0x202f) || decide (c.toNat = 0x205f) ||
  decide (c.toNat = 0x3000) || decide (c.toNat = 0xfeff)

/-- Worker for `jsSplitWhitespace`: `acc` holds the (reversed) characters of
the token currently being read.  A whitespace character ends the current
token and the rest of the maximal whitespace run is skipped, matching how
`String.prototype.split(/\s+/)` splits at maximal `\s+` matches (so leading
and trailing whitespace produce empty tokens, but no empty tokens appear
between words). -/
def splitWsAux : List Char → List Char → List String
  | [], acc => [String.mk acc.reverse]
  | c :: cs, acc =>
    if isJsWhitespace c then
      String.mk acc.reverse :: splitWsAux (cs.dropWhile isJsWhitespace) []
    else
      splitWsAux cs (c :: acc)
termination_by cs _ => cs.length
decreasing_by
  · exact Nat.lt_succ_of_le (List.Sublist.length_le (List.dropWhile_sublist isJsWhitespace))
  · exact Nat.lt_succ_self _

/-- Embedding of the JavaScript expression `s.split(/\s+/)`. -/
def jsSplitWhitespace (s : String) : List String :=
  splitWsAux s.data []

/-! ### SpitchService scoring helpers
(src/afrilingo/src/services/spitch.service.ts, lines 414-478).
The Unicode NFD normalization performed by `text.normalize("NFD")` and the
lowercasing performed by `toLowerCase()` depend on Unicode tables the logic
is parametric in; they are passed as explicit function arguments `nfd` and
`low`. -/

/-- Embedding of `SpitchService.removeToneMarks`:
`text.normalize("NFD").replace(/[̀-ͯ]/g, "")`. -/
def removeToneMarks (nfd : String → String) (text : String) : String :=
  String.mk ((nfd text).data.filter
    (fun c => !(decide (0x300 ≤ c.toNat) && decide (c.toNat ≤ 0x36f))))

/-- Embedding of `SpitchService.wordsMatch`. -/
def wordsMatch (nfd : String → String) (word1 word2 : String) : Bool :=
  if word1 = word2 then true
  else
    let normalized1 := removeToneMarks nfd word1
    let normalized2 := removeToneMarks nfd word2
    if normalized1 = normalized2 then true
    else decide (levenshteinDistance normalized1 normalized2 ≤ 1)

/-- Embedding of `SpitchService.calculatePronunciationScore`; the
`for`-loop accumulating `matchCount` over `0 ≤ i < min(len, len)` is
rendered as a fold over `List.range`, and the JavaScript number division is
modelled exactly in `ℚ`. -/
def calculatePronunciationScore (low nfd : String → String)
    (transcribed expected : String) : ℚ :=
  let transcribedWords := jsSplitWhitespace (low transcribed)
  let expectedWords := jsSplitWhitespace (low expected)
  let maxLength := max transcribedWords.length expectedWords.length
  let matchCount := (List.range (min transcribedWords.length expectedWords.length)).foldl
    (fun acc i =>
      if wordsMatch nfd (transcribedWords.getD i "") (expectedWords.getD i "") then
        acc + 1
      else acc) 0
  (matchCount : ℚ) / (maxLength : ℚ)

/-- Embedding of `SpitchService.calculateCompleteness`:
`Math.min(transcribedWords / expectedWords, 1)` over the whitespace-token
counts of the two strings (no lowercasing here, as in the source). -/
def calculateCompleteness (transcribed expected : String) : ℚ :=
  min (((jsSplitWhitespace transcribed).length : ℚ) /
    ((jsSplitWhitespace expected).length : ℚ)) 1

/-! ### SpitchService.analyzePronunciation
(src/afrilingo/src/services/spitch.service.ts, lines 230-310).
The transcription request (fetch + response.json) is modelled as an
`Except Unit String` oracle carrying the transcribed text on success; any
rejection or processing failure inside the `try` block is the `error`
case, which the source catches and answers with mock data built from
`Math.random()`, modelled as the parameter `r`.  The private
`generateDetailedFeedback` method only produces feedback strings and is
abstracted as the parameter `genFeedback`. -/

structure PronunciationDetails where
  accuracy : ℚ
  fluency : ℚ
  completeness : ℚ
deriving DecidableEq, Repr

structure PronunciationResult where
  score : ℚ
  feedback : List String
  details : PronunciationDetails
deriving DecidableEq, Repr

/-- Embedding of `SpitchService.analyzePronunciation`. -/
def analyzePronunciation (low nfd : String → String)
    (genFeedback : ℚ → String → String → String → List String)
    (language : String) (transcription : Except Unit String)
    (expectedText : String) (r : ℚ) : PronunciationResult :=
  match transcription with
  | Except.ok text =>
    let score := calculatePronunciationScore low nfd text expectedText
    { score := score
      feedback := genFeedback score text expectedText language
      details :=
        { accuracy := score
          fluency := score * (9 / 10)
          completeness := calculateCompleteness text expectedText } }
  | Except.error _ =>
    let mockScore : ℚ := 3 / 4 + r * (1 / 5)
    { score := mockScore
      feedback := genFeedback mockScore (expectedText ++ " (simulated)") expectedText language
      details :=
        { accuracy := mockScore
          fluency := mockScore * (19 / 20)
          completeness := 9 / 10 } }

/-! ### GeminiService (src/afrilingo/src/services/gemini.service.ts) -/

structure VocabularyItem where
  word : String
  meaning : String
  usage : String
deriving DecidableEq, Repr

structure Story where
  title : String
  content : String
  moralLesson : String
  vocabulary : List VocabularyItem
  comprehensionQuestions : List String
deriving DecidableEq, Repr

/-- The `Yoruba` entry of the `stories` literal in `getFallbackStory`. -/
def yorubaFallbackStory : Story :=
  { title := "Ìjàpá àti Ẹkùn"
    content := "Ní ìgbà kan, Ìjàpá àti Ẹkùn jẹ́ ọ̀rẹ́. Ṣùgbọ́n Ìjàpá fẹ́ jẹ ọba igbó..."
    moralLesson := "Ọgbọ́n ju agbára lọ"
    vocabulary :=
      [{ word := "Ìjàpá", meaning := "Tortoise", usage := "Ìjàpá jẹ́ ọlọ́gbọ́n" },
       { word := "Ẹkùn", meaning := "Leopard", usage := "Ẹkùn ní agbára" }]
    comprehensionQuestions :=
      ["Kí ni Ìjàpá fẹ́ ṣe?", "Tani ó ní agbára jù?", "Kí ni ẹ̀kọ́ ìtàn yìí?"] }

/-- The `Igbo` entry of the `stories` literal in `getFallbackStory`. -/
def igboFallbackStory : Story :=
  { title := "Mbe na Enyi"
    content := "Otu oge, Mbe na Enyi bụ enyi. Mbe chọrọ ịbụ eze ọhịa..."
    moralLesson := "Amamihe ka ike"
    vocabulary :=
      [{ word := "Mbe", meaning := "Tortoise", usage := "Mbe nwere amamihe" },
       { word := "Enyi", meaning := "Elephant", usage := "Enyi nwere ike" }]
    comprehensionQuestions :=
      ["Gịnị ka Mbe chọrọ?", "Onye nwere ike karịa?", "Gịnị bụ ihe mmụta?"] }

/-- The `Hausa` entry of the `stories` literal in `getFallbackStory`. -/
def hausaFallbackStory : Story :=
  { title := "Kunkuru da Zaki"
    content := "Wata rana, Kunkuru da Zaki suna abokantaka. Kunkuru yana son ya zama sarkin daji..."
    moralLesson := "Hikima ta fi ƙarfi"
    vocabulary :=
      [{ word := "Kunkuru", meaning := "Tortoise", usage := "Kunkuru yana da hikima" },
       { word := "Zaki", meaning := "Lion", usage := "Zaki yana da ƙarfi" }]
    comprehensionQuestions :=
      ["Me Kunkuru yake so?", "Wane ne yake da ƙarfi?", "Menene darasin labarin?"] }

/-- The property names every plain object literal inherits from
`Object.prototype` (ECMA-262 members plus the Annex B accessors).  A
bracket lookup `stories[language]` on the `stories` object literal climbs
the prototype chain, so for these names it yields the inherited member —
a function (or, for the proto accessor, an object), which is truthy. -/
def objectPrototypeKeys : List String :=
  ["constructor", "hasOwnProperty", "isPrototypeOf", "propertyIsEnumerable",
   "toLocaleString", "toString", "valueOf", "__proto__", "__defineGetter__",
   "__defineSetter__", "__lookupGetter__", "__lookupSetter__"]

/-- A value that `getFallbackStory` can return at run time: one of the
story records of the `stories` literal (or a parsed story, for
`generateStory`), or a truthy member inherited from `Object.prototype`
when `language` is one of its property names (the TypeScript
`as keyof typeof stories` cast does not prevent this). -/
inductive FallbackValue
  | story (s : Story)
  | inherited (name : String)
deriving DecidableEq, Repr

/-- Embedding of `GeminiService.getFallbackStory`:
`stories[language] || stories.Yoruba`.  The bracket lookup finds the own
properties `Yoruba`, `Igbo`, `Hausa` first, then the members inherited
from `Object.prototype` (all truthy, hence returned as-is by the `||`),
and only otherwise yields `undefined`, which the `||` replaces with
`stories.Yoruba`. -/
def getFallbackStory (language : String) : FallbackValue :=
  if language = "Yoruba" then FallbackValue.story yorubaFallbackStory
  else if language = "Igbo" then FallbackValue.story igboFallbackStory
  else if language = "Hausa" then FallbackValue.story hausaFallbackStory
  else if language ∈ objectPrototypeKeys then FallbackValue.inherited language
  else FallbackValue.story yorubaFallbackStory

/-- Embedding of `GeminiService.generateStory`.  The awaited
`model.generateContent` call chain is the oracle `apiResult`
(`error` = the promise rejected, `ok text` = it produced `text`); `parse`
models the private `parseJSONSafely` method, with `none` standing for its
`null` result (JSON.parse failure) or any other falsy parse result.  The
source returns `parsed` when truthy and otherwise falls back, and its
`catch` block also falls back, so the function always resolves. -/
def generateStory (parse : String → Option Story)
    (apiResult : Except Unit String) (language : String) : FallbackValue :=
  match apiResult with
  | Except.error _ => getFallbackStory language
  | Except.ok text =>
    match parse text with
    | some story => FallbackValue.story story
    | none => getFallbackStory language

/-- Observable outcome of a `retryWithBackoff` run: the value returned or
error thrown, how many times `fn` was invoked, and the sequence of
`setTimeout` delays (in ms) awaited between consecutive attempts. -/
structure RetryTrace (α : Type) where
  result : Except String α
  calls : ℕ
  delays : List ℕ
deriving Repr

/-- One pass of the `for (let i = 0; i < maxRetries; i++)` loop of
`GeminiService.retryWithBackoff`, starting at iteration `i`.  Attempt `i`
of the callback is the oracle value `fn i`; a failed non-final attempt
sleeps `Math.pow(2, i) * 1000` ms and continues.  The throw of a Max-retries-exceeded error after the loop is the unreachable
fall-through case. -/
def retryLoop (fn : ℕ → Except String α) (maxRetries i : ℕ) : RetryTrace α :=
  if _h : i < maxRetries then
    match fn i with
    | Except.ok a => ⟨Except.ok a, 1, []⟩
    | Except.error e =>
      if i = maxRetries - 1 then ⟨Except.error e, 1, []⟩
      else
        let t := retryLoop fn maxRetries (i + 1)
        ⟨t.result, t.calls + 1, 2 ^ i * 1000 :: t.delays⟩
  else ⟨Except.error "Max retries exceeded", 0, []⟩
termination_by maxRetries - i

/-- Embedding of `GeminiService.retryWithBackoff` (gemini.service.ts,
lines 38-51). -/
def retryWithBackoff (fn : ℕ → Except String α) (maxRetries : ℕ) : RetryTrace α :=
  retryLoop fn maxRetries 0

/-! ### spitch-proxy serverless function
(src/afrilingo/supabase/functions/spitch-proxy/index.ts).  The file
registers two near-identical handlers; the first `serve(...)` call
(lines 1-175) is the one that binds the server, and it is the handler
embedded here.  The upstream `fetch` to the Spitch API is an oracle
(`error` = the fetch rejected, in which case the outer `catch` produces a
500 "Proxy error" response).  An upstream response is described by its
status, content-type header, and its body observed as bytes
(`arrayBuffer`), text (`text`) and JSON (`bodyJson = none` when
`response.json()` would throw, which the outer `catch` also turns into a
500 "Proxy error").  `calledUpstream` records whether the handler reached
the upstream `fetch`. -/

structure UpstreamResp (α : Type) where
  status : ℕ
  contentType : Option String
  bodyBytes : List ℕ
  bodyText : String
  bodyJson : Option α

/-- The body of a response produced by the proxy handler, at the
granularity the claims need: the plain ok CORS-preflight text, a JSON error
object identified by its `error` field, relayed audio bytes, relayed
(re-serialized) JSON, or relayed text. -/
inductive ProxyBody (α : Type)
  | okText
  | errJson (error : String)
  | audioBytes (data : List ℕ)
  | jsonVal (j : α)
  | textBody (s : String)
deriving DecidableEq

structure ProxyOut (α : Type) where
  status : ℕ
  contentType : Option String
  body : ProxyBody α
  calledUpstream : Bool

/-- Substring test of JavaScript strings (the includes method). -/
def strIncludes (s sub : String) : Bool :=
  decide (sub.data <:+: s.data)

/-- Optional-chained includes on a possibly-null string (null short-circuits
to a falsy result). -/
def optIncludes (o : Option String) (sub : String) : Bool :=
  match o with
  | some s => strIncludes s sub
  | none => false

/-- The `allowedEndpoints` whitelist of the live (first) handler. -/
def allowedEndpoints : List String :=
  ["/v1/speech", "/v1/transcriptions", "/v1/diacritics", "/v1/translate"]

/-- JavaScript truthiness of a possibly-null/undefined string: null,
undefined and the empty string are falsy. -/
def jsStrFalsy (o : Option String) : Bool :=
  decide (o.getD "" = "")

/-- The JavaScript expression `o || d` on a possibly-null/undefined string
`o`: yields `d` when `o` is null, undefined or empty (falsy), else the
string itself. -/
def jsOrDefault (o : Option String) (d : String) : String :=
  if jsStrFalsy o then d else o.getD ""

/-- Embedding of the first `serve` handler of the spitch-proxy function.
`endpoint` is the query-parameter value already defaulted to the empty
string, `apiKey` is the SPITCH_API_KEY environment variable.  The guard
on the key is the truthiness test of the source, so an empty-string key
counts as missing, and the text-branch content type uses the truthiness
default of the source, so an empty upstream content type also falls back
to text/plain. -/
def spitchProxyHandler (method endpoint : String) (apiKey : Option String)
    (upstream : Except Unit (UpstreamResp α)) : ProxyOut α :=
  if method = "OPTIONS" then
    ⟨200, none, ProxyBody.okText, false⟩
  else if jsStrFalsy apiKey then
    ⟨500, some "application/json", ProxyBody.errJson "Configuration error", false⟩
  else if ¬ endpoint ∈ allowedEndpoints then
    ⟨400, some "application/json", ProxyBody.errJson "Invalid endpoint", false⟩
  else
    match upstream with
    | Except.error _ =>
      ⟨500, some "application/json", ProxyBody.errJson "Proxy error", true⟩
    | Except.ok resp =>
      if ¬ (200 ≤ resp.status ∧ resp.status ≤ 299) then
        ⟨resp.status, some "application/json", ProxyBody.errJson "Spitch API Error", true⟩
      else if optIncludes resp.contentType "audio" then
        ⟨200, resp.contentType, ProxyBody.audioBytes resp.bodyBytes, true⟩
      else if optIncludes resp.contentType "application/json" then
        match resp.bodyJson with
        | some j => ⟨200, some "application/json", ProxyBody.jsonVal j, true⟩
        | none => ⟨500, some "application/json", ProxyBody.errJson "Proxy error", true⟩
      else
        ⟨200, some (jsOrDefault resp.contentType "text/plain"),
          ProxyBody.textBody resp.bodyText, true⟩

/-! ### The SpitchService audio cache
(src/afrilingo/src/services/spitch.service.ts, lines 63, 74-124).
`audioCache : Map<string, Blob>` is modelled as an association list in
insertion order with pairwise-distinct keys, which is exactly the
observable state of a JavaScript `Map`. -/

/-- JavaScript Map set method: replace in place when the key is present,
otherwise append at the end of the insertion order. -/
def mapSet (cache : List (String × β)) (k : String) (v : β) : List (String × β) :=
  if cache.any (fun p => p.1 == k) then
    cache.map (fun p => if p.1 == k then (k, v) else p)
  else
    cache ++ [(k, v)]

/-- Effect of one completed `generateSpeech` call on `audioCache` for cache
key `k` and fetched blob `v`: a cache hit returns early and leaves the
cache unchanged; otherwise the blob is inserted and, when the size then
exceeds 50, the entry with the first key in insertion order (the head,
since keys are pairwise distinct) is deleted.  Calls that throw before the
`set` leave the cache unchanged and are covered by the hit case shape. -/
def generateSpeechStep (cache : List (String × β)) (k : String) (v : β) :
    List (String × β) :=
  if cache.any (fun p => p.1 == k) then cache
  else
    let c := mapSet cache k v
    if 50 < c.length then c.tail else c

/-! ## Theorems -/

/-! ### Levenshtein distance: `lev` equations and elementary bounds -/

theorem lev_nil_left (ys : List Char) : lev [] ys = ys.length := by
  simp [lev]

theorem lev_nil_right (xs : List Char) : lev xs [] = xs.length := by
  cases xs <;> simp [lev]

theorem lev_cons_cons (x y : Char) (xs ys : List Char) :
    lev (x :: xs) (y :: ys) =
      if x = y then lev xs ys
      else 1 + min (lev xs ys) (min (lev (x :: xs) ys) (lev xs (y :: ys))) := by
  rw [lev]

/-- Changing either string by one character at its head changes `lev` by at
most one, in both directions.  Proved jointly by strong induction on the
total length. -/
theorem lev_bounds :
    ∀ (N : ℕ) (xs ys : List Char), xs.length + ys.length ≤ N →
      (∀ a, lev (a :: xs) ys ≤ lev xs ys + 1) ∧
      (∀ b, lev xs (b :: ys) ≤ lev xs ys + 1) ∧
      (∀ a, lev xs ys ≤ lev (a :: xs) ys + 1) ∧
      (∀ b, lev xs ys ≤ lev xs (b :: ys) + 1) := by
  intro N
  induction N with
  | zero =>
    intro xs ys h
    have hxs : xs = [] := by cases xs <;> simp_all
    have hys : ys = [] := by cases ys <;> simp_all
    subst hxs; subst hys
    refine ⟨?_, ?_, ?_, ?_⟩ <;> intro a <;>
      simp [lev_nil_left, lev_nil_right]
  | succ N ih =>
    intro xs ys h
    refine ⟨?_, ?_, ?_, ?_⟩
    · intro a
      cases ys with
      | nil =>
        simp only [lev_nil_right, List.length_cons]
        omega
      | cons y ys =>
        rw [lev_cons_cons]
        by_cases hay : a = y
        · rw [if_pos hay]
          have h4 := (ih xs ys (by simp at h ⊢; omega)).2.2.2 y
          omega
        · rw [if_neg hay]
          omega
    · intro b
      cases xs with
      | nil =>
        simp only [lev_nil_left, List.length_cons]
        omega
      | cons x xs =>
        rw [lev_cons_cons]
        by_cases hxb : x = b
        · rw [if_pos hxb]
          have h3 := (ih xs ys (by simp at h ⊢; omega)).2.2.1 x
          omega
        · rw [if_neg hxb]
          omega
    · intro a
      cases ys with
      | nil =>
        simp only [lev_nil_right, List.length_cons]
        omega
      | cons y ys =>
        rw [lev_cons_cons]
        by_cases hay : a = y
        · rw [if_pos hay]
          have h2 := (ih xs ys (by simp at h ⊢; omega)).2.1 y
          omega
        · rw [if_neg hay]
          have h2 := (ih xs ys (by simp at h ⊢; omega)).2.1 y
          have h3 := (ih xs ys (by simp at h ⊢; omega)).2.2.1 a
          omega
    · intro b
      cases xs with
      | nil =>
        simp only [lev_nil_left, List.length_cons]
        omega
      | cons x xs =>
        rw [lev_cons_cons]
        by_cases hxb : x = b
        · rw [if_pos hxb]
          have h1 := (ih xs ys (by simp at h ⊢; omega)).1 x
          omega
        · rw [if_neg hxb]
          have h1 := (ih xs ys (by simp at h ⊢; omega)).1 x
          have h4 := (ih xs ys (by simp at h ⊢; omega)).2.2.2 b
          omega

theorem lev_cons_left_le (a : Char) (xs ys : List Char) :
    lev (a :: xs) ys ≤ lev xs ys + 1 :=
  (lev_bounds (xs.length + ys.length) xs ys le_rfl).1 a

theorem lev_cons_right_le (b : Char) (xs ys : List Char) :
    lev xs (b :: ys) ≤ lev xs ys + 1 :=
  (lev_bounds (xs.length + ys.length) xs ys le_rfl).2.1 b

/-! ### `lev` computes the least alignment cost -/

/-- Minimality: any alignment of cost `n` bounds `lev` by `n`. -/
theorem lev_le_of_edits {xs ys : List Char} {n : ℕ} (h : Edits xs ys n) :
    lev xs ys ≤ n := by
  induction h with
  | nil => simp [lev_nil_left]
  | keep a _ ih =>
    rw [lev_cons_cons, if_pos rfl]
    exact ih
  | subst a b _ ih =>
    rw [lev_cons_cons]
    by_cases hab : a = b
    · rw [if_pos hab]; omega
    · rw [if_neg hab]; omega
  | delete a _ ih =>
    exact Nat.le_trans (lev_cons_left_le a _ _) (Nat.succ_le_succ ih)
  | insert b _ ih =>
    exact Nat.le_trans (lev_cons_right_le b _ _) (Nat.succ_le_succ ih)

theorem edits_nil_insert (ys : List Char) : Edits [] ys ys.length := by
  induction ys with
  | nil => exact Edits.nil
  | cons y ys ih => exact Edits.insert y ih

theorem edits_nil_delete (xs : List Char) : Edits xs [] xs.length := by
  induction xs with
  | nil => exact Edits.nil
  | cons x xs ih => exact Edits.delete x ih

/-- Existence: `lev xs ys` is itself realized by an alignment. -/
theorem edits_lev_aux :
    ∀ (N : ℕ) (xs ys : List Char), xs.length + ys.length ≤ N →
      Edits xs ys (lev xs ys) := by
  intro N
  induction N with
  | zero =>
    intro xs ys h
    have hxs : xs = [] := by cases xs <;> simp_all
    have hys : ys = [] := by cases ys <;> simp_all
    subst hxs; subst hys
    simpa [lev_nil_left] using Edits.nil
  | succ N ih =>
    intro xs ys h
    cases xs with
    | nil => simpa [lev_nil_left] using edits_nil_insert ys
    | cons x xs =>
      cases ys with
      | nil => simpa [lev_nil_right] using edits_nil_delete (x :: xs)
      | cons y ys =>
        rw [lev_cons_cons]
        by_cases hxy : x = y
        · rw [if_pos hxy]
          subst hxy
          exact Edits.keep x (ih xs ys (by simp at h ⊢; omega))
        · rw [if_neg hxy]
          have e1 := ih xs ys (by simp at h ⊢; omega)
          have e2 := ih (x :: xs) ys (by simp at h ⊢; omega)
          have e3 := ih xs (y :: ys) (by simp at h ⊢; omega)
          have hcase :
              min (lev xs ys) (min (lev (x :: xs) ys) (lev xs (y :: ys))) = lev xs ys ∨
              min (lev xs ys) (min (lev (x :: xs) ys) (lev xs (y :: ys))) = lev (x :: xs) ys ∨
              min (lev xs ys) (min (lev (x :: xs) ys) (lev xs (y :: ys))) = lev xs (y :: ys) := by
            omega
          rcases hcase with hc | hc | hc <;> rw [hc, Nat.add_comm]
          · exact Edits.subst x y e1
          · exact Edits.insert y e2
          · exact Edits.delete x e3

theorem edits_lev (xs ys : List Char) : Edits xs ys (lev xs ys) :=
  edits_lev_aux (xs.length + ys.length) xs ys le_rfl

/-- Alignments compose with subadditive cost (strong induction on the total
length of the three lists). -/
theorem edits_trans_aux :
    ∀ (N : ℕ) (xs ys zs : List Char) (m n : ℕ),
      xs.length + ys.length + zs.length ≤ N →
      Edits xs ys m → Edits ys zs n → ∃ k, k ≤ m + n ∧ Edits xs zs k := by
  intro N
  induction N with
  | zero =>
    intro xs ys zs m n hlen h₁ h₂
    have hxs : xs = [] := by cases xs <;> simp_all
    have hys : ys = [] := by cases ys <;> simp_all
    have hzs : zs = [] := by cases zs <;> simp_all
    subst hxs; subst hys; subst hzs
    cases h₁
    cases h₂
    exact ⟨0, le_rfl, Edits.nil⟩
  | succ N ih =>
    intro xs ys zs m n hlen h₁ h₂
    cases h₁ with
    | nil => exact ⟨n, by omega, h₂⟩
    | keep a h₁' =>
      cases h₂ with
      | keep _ h₂' =>
        obtain ⟨k, hk, h⟩ :=
          ih _ _ _ _ _ (by simp only [List.length_cons] at hlen ⊢; omega) h₁' h₂'
        exact ⟨k, by omega, Edits.keep a h⟩
      | subst _ d h₂' =>
        obtain ⟨k, hk, h⟩ :=
          ih _ _ _ _ _ (by simp only [List.length_cons] at hlen ⊢; omega) h₁' h₂'
        exact ⟨k + 1, by omega, Edits.subst a d h⟩
      | delete _ h₂' =>
        obtain ⟨k, hk, h⟩ :=
          ih _ _ _ _ _ (by simp only [List.length_cons] at hlen ⊢; omega) h₁' h₂'
        exact ⟨k + 1, by omega, Edits.delete a h⟩
      | insert c h₂' =>
        obtain ⟨k, hk, h⟩ :=
          ih _ _ _ _ _ (by simp only [List.length_cons] at hlen ⊢; omega)
            (Edits.keep a h₁') h₂'
        exact ⟨k + 1, by omega, Edits.insert c h⟩
    | subst a b h₁' =>
      cases h₂ with
      | keep _ h₂' =>
        obtain ⟨k, hk, h⟩ :=
          ih _ _ _ _ _ (by simp only [List.length_cons] at hlen ⊢; omega) h₁' h₂'
        exact ⟨k + 1, by omega, Edits.subst a b h⟩
      | subst _ d h₂' =>
        obtain ⟨k, hk, h⟩ :=
          ih _ _ _ _ _ (by simp only [List.length_cons] at hlen ⊢; omega) h₁' h₂'
        exact ⟨k + 1, by omega, Edits.subst a d h⟩
      | delete _ h₂' =>
        obtain ⟨k, hk, h⟩ :=
          ih _ _ _ _ _ (by simp only [List.length_cons] at hlen ⊢; omega) h₁' h₂'
        exact ⟨k + 1, by omega, Edits.delete a h⟩
      | insert c h₂' =>
        obtain ⟨k, hk, h⟩ :=
          ih _ _ _ _ _ (by simp only [List.length_cons] at hlen ⊢; omega)
            (Edits.subst a b h₁') h₂'
        exact ⟨k + 1, by omega, Edits.insert c h⟩
    | delete a h₁' =>
      obtain ⟨k, hk, h⟩ :=
        ih _ _ _ _ _ (by simp only [List.length_cons] at hlen ⊢; omega) h₁' h₂
      exact ⟨k + 1, by omega, Edits.delete a h⟩
    | insert b h₁' =>
      cases h₂ with
      | keep _ h₂' =>
        obtain ⟨k, hk, h⟩ :=
          ih _ _ _ _ _ (by simp only [List.length_cons] at hlen ⊢; omega) h₁' h₂'
        exact ⟨k + 1, by omega, Edits.insert b h⟩
      | subst _ d h₂' =>
        obtain ⟨k, hk, h⟩ :=
          ih _ _ _ _ _ (by simp only [List.length_cons] at hlen ⊢; omega) h₁' h₂'
        exact ⟨k + 1, by omega, Edits.insert d h⟩
      | delete _ h₂' =>
        obtain ⟨k, hk, h⟩ :=
          ih _ _ _ _ _ (by simp only [List.length_cons] at hlen ⊢; omega) h₁' h₂'
        exact ⟨k, by omega, h⟩
      | insert c h₂' =>
        obtain ⟨k, hk, h⟩ :=
          ih _ _ _ _ _ (by simp only [List.length_cons] at hlen ⊢; omega)
            (Edits.insert b h₁') h₂'
        exact ⟨k + 1, by omega, Edits.insert c h⟩

/-- Alignments compose with subadditive cost. -/
theorem edits_trans {xs ys zs : List Char} {m n : ℕ}
    (h₁ : Edits xs ys m) (h₂ : Edits ys zs n) :
    ∃ k, k ≤ m + n ∧ Edits xs zs k :=
  edits_trans_aux (xs.length + ys.length + zs.length) xs ys zs m n le_rfl h₁ h₂

theorem edits_refl (xs : List Char) : Edits xs xs 0 := by
  induction xs with
  | nil => exact Edits.nil
  | cons x xs ih => exact Edits.keep x ih

theorem edits_append_left (l : List Char) {xs ys : List Char} {n : ℕ}
    (h : Edits xs ys n) : Edits (l ++ xs) (l ++ ys) n := by
  induction l with
  | nil => simpa using h
  | cons c l ih => exact Edits.keep c ih

/-- A single positional edit is an alignment of cost 1. -/
theorem estep_edits {xs ys : List Char} (h : EStep xs ys) : Edits xs ys 1 := by
  rcases h with ⟨l, r, b, hx, hy⟩ | ⟨l, r, a, hx, hy⟩ | ⟨l, r, a, b, hx, hy⟩
  · subst hx; subst hy
    exact edits_append_left l (Edits.insert b (edits_refl r))
  · subst hx; subst hy
    exact edits_append_left l (Edits.delete a (edits_refl r))
  · subst hx; subst hy
    exact edits_append_left l (Edits.subst a b (edits_refl r))

theorem estep_cons (a : Char) {xs ys : List Char} (h : EStep xs ys) :
    EStep (a :: xs) (a :: ys) := by
  rcases h with ⟨l, r, b, hx, hy⟩ | ⟨l, r, c, hx, hy⟩ | ⟨l, r, c, b, hx, hy⟩
  · exact Or.inl ⟨a :: l, r, b, by simp [hx], by simp [hy]⟩
  · exact Or.inr (Or.inl ⟨a :: l, r, c, by simp [hx], by simp [hy]⟩)
  · exact Or.inr (Or.inr ⟨a :: l, r, c, b, by simp [hx], by simp [hy]⟩)

theorem nsteps_cons (a : Char) {n : ℕ} {xs ys : List Char}
    (h : NSteps n xs ys) : NSteps n (a :: xs) (a :: ys) := by
  induction h with
  | zero xs => exact NSteps.zero _
  | succ hstep _ ih => exact NSteps.succ (estep_cons a hstep) ih

/-- Every cost-`n` alignment is realized by a sequence of `n` positional
edit operations. -/
theorem nsteps_of_edits {xs ys : List Char} {n : ℕ} (h : Edits xs ys n) :
    NSteps n xs ys := by
  induction h with
  | nil => exact NSteps.zero _
  | keep a _ ih => exact nsteps_cons a ih
  | subst a b _ ih =>
    refine NSteps.succ ?_ (nsteps_cons b ih)
    exact Or.inr (Or.inr ⟨[], _, a, b, rfl, rfl⟩)
  | delete a _ ih =>
    refine NSteps.succ ?_ ih
    exact Or.inr (Or.inl ⟨[], _, a, rfl, rfl⟩)
  | insert b _ ih =>
    refine NSteps.succ ?_ (nsteps_cons b ih)
    exact Or.inl ⟨[], _, b, rfl, rfl⟩

/-- Any sequence of `n` edit operations bounds `lev` by `n`. -/
theorem lev_le_of_nsteps {n : ℕ} {xs ys : List Char}
    (h : NSteps n xs ys) : lev xs ys ≤ n := by
  induction h with
  | zero xs => exact le_of_eq (Nat.le_zero.mp (lev_le_of_edits (edits_refl xs)) )
  | succ hstep hrest ih =>
    rename_i xs' ys' zs' n'
    obtain ⟨k, hk, h⟩ := edits_trans (estep_edits hstep) (edits_lev ys' zs')
    have h1 := lev_le_of_edits h
    omega

/-- Realizability: `lev xs ys` edit operations suffice to turn `xs` into `ys`. -/
theorem nsteps_lev (xs ys : List Char) : NSteps (lev xs ys) xs ys :=
  nsteps_of_edits (edits_lev xs ys)

theorem edits_snoc_keep (a : Char) {xs ys : List Char} {n : ℕ}
    (h : Edits xs ys n) : Edits (xs ++ [a]) (ys ++ [a]) n := by
  induction h with
  | nil => exact Edits.keep a Edits.nil
  | keep c _ ih => exact Edits.keep c ih
  | subst c d _ ih => exact Edits.subst c d ih
  | delete c _ ih => exact Edits.delete c ih
  | insert c _ ih => exact Edits.insert c ih

theorem edits_snoc_subst (a b : Char) {xs ys : List Char} {n : ℕ}
    (h : Edits xs ys n) : Edits (xs ++ [a]) (ys ++ [b]) (n + 1) := by
  induction h with
  | nil => exact Edits.subst a b Edits.nil
  | keep c _ ih => exact Edits.keep c ih
  | subst c d _ ih => exact Edits.subst c d ih
  | delete c _ ih => exact Edits.delete c ih
  | insert c _ ih => exact Edits.insert c ih

theorem edits_snoc_delete (a : Char) {xs ys : List Char} {n : ℕ}
    (h : Edits xs ys n) : Edits (xs ++ [a]) ys (n + 1) := by
  induction h with
  | nil => exact Edits.delete a Edits.nil
  | keep c _ ih => exact Edits.keep c ih
  | subst c d _ ih => exact Edits.subst c d ih
  | delete c _ ih => exact Edits.delete c ih
  | insert c _ ih => exact Edits.insert c ih

theorem edits_snoc_insert (b : Char) {xs ys : List Char} {n : ℕ}
    (h : Edits xs ys n) : Edits xs (ys ++ [b]) (n + 1) := by
  induction h with
  | nil => exact Edits.insert b Edits.nil
  | keep c _ ih => exact Edits.keep c ih
  | subst c d _ ih => exact Edits.subst c d ih
  | delete c _ ih => exact Edits.delete c ih
  | insert c _ ih => exact Edits.insert c ih

/-- Alignments are preserved by reversing both strings. -/
theorem edits_reverse {xs ys : List Char} {n : ℕ} (h : Edits xs ys n) :
    Edits xs.reverse ys.reverse n := by
  induction h with
  | nil => exact Edits.nil
  | keep c _ ih => simpa [List.reverse_cons] using edits_snoc_keep c ih
  | subst c d _ ih => simpa [List.reverse_cons] using edits_snoc_subst c d ih
  | delete c _ ih => simpa [List.reverse_cons] using edits_snoc_delete c ih
  | insert c _ ih => simpa [List.reverse_cons] using edits_snoc_insert c ih

/-- The Levenshtein distance is invariant under reversing both strings. -/
theorem lev_reverse (xs ys : List Char) :
    lev xs.reverse ys.reverse = lev xs ys := by
  have h1 : lev xs.reverse ys.reverse ≤ lev xs ys :=
    lev_le_of_edits (edits_reverse (edits_lev xs ys))
  have h2 : lev xs ys ≤ lev xs.reverse ys.reverse := by
    have := lev_le_of_edits (edits_reverse (edits_lev xs.reverse ys.reverse))
    simpa using this
  omega

/-! ### The code DP matrix computes `lev` -/

theorem levMat_zero_left (s1 s2 : List Char) (j : ℕ) : levMat s1 s2 0 j = j := by
  rw [levMat]

theorem levMat_succ_zero (s1 s2 : List Char) (i : ℕ) :
    levMat s1 s2 (i + 1) 0 = i + 1 := by
  rw [levMat]

theorem levMat_succ_succ (s1 s2 : List Char) (i j : ℕ) :
    levMat s1 s2 (i + 1) (j + 1) =
      if s2.getD i ' ' = s1.getD j ' ' then levMat s1 s2 i j
      else
        min (min (levMat s1 s2 i j + 1) (levMat s1 s2 (i + 1) j + 1))
          (levMat s1 s2 i (j + 1) + 1) := by
  rw [levMat]

theorem take_succ_reverse (s : List Char) (j : ℕ) (h : j < s.length) :
    (s.take (j + 1)).reverse = s.getD j ' ' :: (s.take j).reverse := by
  rw [List.take_succ, List.getElem?_eq_getElem h, List.getD_eq_getElem s ' ' h]
  simp

/-- Matrix entry `(i, j)` is the `lev` distance between the reversed
`j`-prefix of `str1` and the reversed `i`-prefix of `str2`. -/
theorem levMat_eq :
    ∀ (N i j : ℕ) (s1 s2 : List Char), i + j ≤ N → i ≤ s2.length → j ≤ s1.length →
      levMat s1 s2 i j = lev ((s1.take j).reverse) ((s2.take i).reverse) := by
  intro N
  induction N with
  | zero =>
    intro i j s1 s2 hN hi hj
    have hi0 : i = 0 := by omega
    have hj0 : j = 0 := by omega
    subst hi0; subst hj0
    simp [levMat_zero_left, lev_nil_left]
  | succ N ih =>
    intro i j s1 s2 hN hi hj
    cases i with
    | zero =>
      rw [levMat_zero_left]
      simp only [List.take_zero, List.reverse_nil, lev_nil_right,
        List.length_reverse, List.length_take]
      omega
    | succ i =>
      cases j with
      | zero =>
        rw [levMat_succ_zero]
        simp only [List.take_zero, List.reverse_nil, lev_nil_left,
          List.length_reverse, List.length_take]
        omega
      | succ j =>
        have hi' : i < s2.length := by omega
        have hj' : j < s1.length := by omega
        have e1 := take_succ_reverse s1 j hj'
        have e2 := take_succ_reverse s2 i hi'
        rw [levMat_succ_succ, e1, e2, lev_cons_cons]
        by_cases hc : s2.getD i ' ' = s1.getD j ' '
        · rw [if_pos hc, if_pos hc.symm]
          exact ih i j s1 s2 (by omega) (by omega) (by omega)
        · rw [if_neg hc, if_neg (fun hh => hc hh.symm)]
          have A := ih i j s1 s2 (by omega) (by omega) (by omega)
          have B := ih i (j + 1) s1 s2 (by omega) (by omega) (by omega)
          have C := ih (i + 1) j s1 s2 (by omega) (by omega) (by omega)
          rw [e1] at B
          rw [e2] at C
          rw [A, B, C]
          omega

/-- The code DP (`levenshteinDistance`) computes the reference recursion
`lev` on the character lists of its argument strings. -/
theorem levenshteinDistance_eq_lev (str1 str2 : String) :
    levenshteinDistance str1 str2 = lev str1.data str2.data := by
  unfold levenshteinDistance
  rw [levMat_eq (str2.data.length + str1.data.length) str2.data.length
    str1.data.length str1.data str2.data le_rfl le_rfl le_rfl]
  rw [List.take_length, List.take_length, lev_reverse]

/-! ### Claim theorems C3 and C2 -/

/-- C3: `SpitchService.levenshteinDistance(s1, s2)` equals the standard
Levenshtein edit distance of the two strings: it is the least `n` such that
`s1` can be transformed into `s2` by a sequence of `n` single-character
insertions, deletions and substitutions. -/
theorem C3_levenshteinDistance_is_least_edit_count (s1 s2 : String) :
    IsLeast {n : ℕ | NSteps n s1.data s2.data} (levenshteinDistance s1 s2) := by
  constructor
  · show NSteps _ _ _
    rw [levenshteinDistance_eq_lev]
    exact nsteps_lev _ _
  · intro n hn
    rw [levenshteinDistance_eq_lev]
    exact lev_le_of_nsteps hn

/-- C2: `SpitchService.wordsMatch(w1, w2)` returns true iff the words are
equal, or their diacritic-stripped forms (NFD normalization followed by
removal of U+0300-U+036F combining marks) are equal, or the Levenshtein
distance between the stripped forms is at most 1 (expressed here as the
existence of an edit script of length at most 1). -/
theorem C2_wordsMatch_iff (nfd : String → String) (word1 word2 : String) :
    wordsMatch nfd word1 word2 = true ↔
      word1 = word2 ∨
      removeToneMarks nfd word1 = removeToneMarks nfd word2 ∨
      ∃ n, n ≤ 1 ∧
        NSteps n (removeToneMarks nfd word1).data (removeToneMarks nfd word2).data := by
  by_cases h1 : word1 = word2
  · simp [wordsMatch, h1]
  · by_cases h2 : removeToneMarks nfd word1 = removeToneMarks nfd word2
    · simp [wordsMatch, h1, h2]
    · simp only [wordsMatch, if_neg h1, if_neg h2, decide_eq_true_eq]
      constructor
      · intro h
        refine Or.inr (Or.inr ⟨levenshteinDistance (removeToneMarks nfd word1)
          (removeToneMarks nfd word2), h, ?_⟩)
        rw [levenshteinDistance_eq_lev]
        exact nsteps_lev _ _
      · rintro (hc | hc | ⟨n, hn, hsteps⟩)
        · exact absurd hc h1
        · exact absurd hc h2
        · rw [levenshteinDistance_eq_lev]
          exact Nat.le_trans (lev_le_of_nsteps hsteps) hn

/-! ### Pronunciation score: counting form and bounds -/

theorem foldl_count (p : ℕ → Bool) :
    ∀ (l : List ℕ) (acc : ℚ),
      l.foldl (fun acc i => if p i then acc + 1 else acc) acc = acc + (l.countP p : ℚ) := by
  intro l
  induction l with
  | nil => intro acc; simp
  | cons x l ih =>
    intro acc
    rw [List.foldl_cons, ih, List.countP_cons]
    by_cases hp : p x
    all_goals simp [hp]
    all_goals ring

/-- The score is the number of aligned token positions accepted by
`wordsMatch`, divided by the larger token count. -/
theorem calculatePronunciationScore_eq (low nfd : String → String)
    (transcribed expected : String) :
    calculatePronunciationScore low nfd transcribed expected =
      (((List.range (min (jsSplitWhitespace (low transcribed)).length
            (jsSplitWhitespace (low expected)).length)).countP
          (fun i => wordsMatch nfd ((jsSplitWhitespace (low transcribed)).getD i "")
            ((jsSplitWhitespace (low expected)).getD i "")) : ℚ)) /
        ((max (jsSplitWhitespace (low transcribed)).length
          (jsSplitWhitespace (low expected)).length : ℕ) : ℚ) := by
  unfold calculatePronunciationScore
  simp only []
  rw [foldl_count]
  simp

set_option maxHeartbeats 1600000 in
theorem one_le_splitWsAux_length :
    ∀ (N : ℕ) (cs acc : List Char), cs.length ≤ N → 1 ≤ (splitWsAux cs acc).length := by
  intro N
  induction N with
  | zero =>
    intro cs acc h
    have hcs : cs = [] := by cases cs <;> simp_all
    subst hcs
    rw [splitWsAux]
    simp
  | succ N ih =>
    intro cs acc h
    cases cs with
    | nil =>
      rw [splitWsAux]
      simp
    | cons c cs =>
      rw [splitWsAux]
      by_cases hw : isJsWhitespace c
      · rw [if_pos hw]
        simp
      · rw [if_neg hw]
        exact ih cs (c :: acc) (by simp at h; omega)

/-- Splitting any string on whitespace always produces at least one token. -/
theorem one_le_jsSplitWhitespace_length (s : String) :
    1 ≤ (jsSplitWhitespace s).length :=
  one_le_splitWsAux_length s.data.length s.data [] le_rfl

/-- C1: `calculatePronunciationScore` lowercases both strings, splits each
on whitespace into token lists `T` and `E`, counts the aligned positions
`i < min (|T|, |E|)` at which `wordsMatch (T[i], E[i])` holds, and returns
that count divided by `max (|T|, |E|)`. -/
theorem C1_calculatePronunciationScore_spec (low nfd : String → String)
    (transcribed expected : String) :
    calculatePronunciationScore low nfd transcribed expected =
      (((List.range (min (jsSplitWhitespace (low transcribed)).length
            (jsSplitWhitespace (low expected)).length)).countP
          (fun i => wordsMatch nfd ((jsSplitWhitespace (low transcribed)).getD i "")
            ((jsSplitWhitespace (low expected)).getD i "")) : ℚ)) /
        ((max (jsSplitWhitespace (low transcribed)).length
          (jsSplitWhitespace (low expected)).length : ℕ) : ℚ) :=
  calculatePronunciationScore_eq low nfd transcribed expected

/-- C9: splitting any string on whitespace yields at least one token, so
the denominators of `calculatePronunciationScore` (the larger token count)
and `calculateCompleteness` (the expected token count) are at least 1, and
both results lie in `[0, 1]`. -/
theorem C9_no_division_by_zero_and_bounds (low nfd : String → String)
    (transcribed expected : String) :
    1 ≤ max (jsSplitWhitespace (low transcribed)).length
        (jsSplitWhitespace (low expected)).length ∧
    1 ≤ (jsSplitWhitespace expected).length ∧
    0 ≤ calculatePronunciationScore low nfd transcribed expected ∧
    calculatePronunciationScore low nfd transcribed expected ≤ 1 ∧
    0 ≤ calculateCompleteness transcribed expected ∧
    calculateCompleteness transcribed expected ≤ 1 := by
  have hT := one_le_jsSplitWhitespace_length (low transcribed)
  have hE := one_le_jsSplitWhitespace_length (low expected)
  have ht := one_le_jsSplitWhitespace_length transcribed
  have he := one_le_jsSplitWhitespace_length expected
  refine ⟨by omega, he, ?_, ?_, ?_, ?_⟩
  · rw [calculatePronunciationScore_eq]
    exact div_nonneg (by positivity) (by positivity)
  · rw [calculatePronunciationScore_eq]
    have hden : (0 : ℚ) < ((max (jsSplitWhitespace (low transcribed)).length
        (jsSplitWhitespace (low expected)).length : ℕ) : ℚ) := by
      exact_mod_cast Nat.lt_of_lt_of_le Nat.zero_lt_one
        (Nat.le_trans hT (Nat.le_max_left _ _))
    rw [div_le_one hden]
    exact_mod_cast Nat.le_trans (Nat.le_trans (List.countP_le_length _)
      (by rw [List.length_range]; exact Nat.min_le_left _ _)) (Nat.le_max_left _ _)
  · unfold calculateCompleteness
    exact le_min (div_nonneg (by positivity) (by positivity)) zero_le_one
  · unfold calculateCompleteness
    exact min_le_right _ _

/-! ### Claim C5: generateStory fallback behaviour -/

/-- C5 counterexample: the claim says the Yoruba fallback is substituted
for every language other than Yoruba, Igbo and Hausa, but for
`language = "toString"` (a property name inherited from
`Object.prototype`) the bracket lookup `stories[language]` yields the
inherited truthy member, which `generateStory` returns instead of the
Yoruba story. -/
theorem C5_prototype_counterexample :
    generateStory (fun _ => none) (Except.error ()) "toString" =
      FallbackValue.inherited "toString" ∧
    ¬ ("toString" = "Yoruba" ∨ "toString" = "Igbo" ∨ "toString" = "Hausa") ∧
    ¬ generateStory (fun _ => none) (Except.error ()) "toString" =
        FallbackValue.story yorubaFallbackStory := by
  refine ⟨by decide, by decide, by decide⟩

/-- C5 (amended): `generateStory` resolves (it is a total function) with
`getFallbackStory language` whenever the generative-model call rejects or
its text does not parse as JSON; that fallback is the hardcoded story for
each of the keys Yoruba, Igbo and Hausa, the Yoruba story for any other
language that is not a property name inherited from `Object.prototype`,
and the inherited (non-story) member for those property names, such as
toString or constructor. -/
theorem C5_generateStory_fallback (parse : String → Option Story)
    (language text : String) :
    generateStory parse (Except.error ()) language = getFallbackStory language ∧
    (parse text = none →
      generateStory parse (Except.ok text) language = getFallbackStory language) ∧
    getFallbackStory "Yoruba" = FallbackValue.story yorubaFallbackStory ∧
    getFallbackStory "Igbo" = FallbackValue.story igboFallbackStory ∧
    getFallbackStory "Hausa" = FallbackValue.story hausaFallbackStory ∧
    (language ≠ "Yoruba" → language ≠ "Igbo" → language ≠ "Hausa" →
      ¬ language ∈ objectPrototypeKeys →
      getFallbackStory language = FallbackValue.story yorubaFallbackStory) ∧
    (language ≠ "Yoruba" → language ≠ "Igbo" → language ≠ "Hausa" →
      language ∈ objectPrototypeKeys →
      getFallbackStory language = FallbackValue.inherited language) := by
  refine ⟨rfl, ?_, by decide, by decide, by decide, ?_, ?_⟩
  · intro h
    simp [generateStory, h]
  · intro h1 h2 h3 h4
    simp [getFallbackStory, h1, h2, h3, h4]
  · intro h1 h2 h3 h4
    simp [getFallbackStory, h1, h2, h3, h4]

theorem C5_generateStory_fallback_witness :
    generateStory (fun _ => none) (Except.error ()) "French" =
      getFallbackStory "French" ∧
    generateStory (fun _ => none) (Except.ok "not json") "French" =
      getFallbackStory "French" ∧
    getFallbackStory "French" = FallbackValue.story yorubaFallbackStory ∧
    getFallbackStory "valueOf" = FallbackValue.inherited "valueOf" := by
  have h := C5_generateStory_fallback (fun _ => none) "French" "not json"
  have h2 := C5_generateStory_fallback (fun _ => none) "valueOf" "not json"
  exact ⟨h.1, h.2.1 rfl,
    h.2.2.2.2.2.1 (by decide) (by decide) (by decide) (by decide),
    h2.2.2.2.2.2.2 (by decide) (by decide) (by decide) (by decide)⟩

/-! ### Claim C7: analyzePronunciation fallback result -/

/-- C7: on any failed transcription, `analyzePronunciation` resolves (it is
total) with a mock result whose score `0.75 + r * 0.2` lies in
`[0.75, 0.95)` for `r = Math.random() ∈ [0, 1)`, whose fluency is
`score * 0.95`, and whose completeness is `0.9`. -/
theorem C7_analyzePronunciation_fallback (low nfd : String → String)
    (genFeedback : ℚ → String → String → String → List String)
    (language expectedText : String) (r : ℚ) (h0 : 0 ≤ r) (h1 : r < 1) :
    3 / 4 ≤ (analyzePronunciation low nfd genFeedback language
        (Except.error ()) expectedText r).score ∧
    (analyzePronunciation low nfd genFeedback language
        (Except.error ()) expectedText r).score < 19 / 20 ∧
    (analyzePronunciation low nfd genFeedback language
        (Except.error ()) expectedText r).details.fluency =
      (analyzePronunciation low nfd genFeedback language
        (Except.error ()) expectedText r).score * (19 / 20) ∧
    (analyzePronunciation low nfd genFeedback language
        (Except.error ()) expectedText r).details.completeness = 9 / 10 ∧
    (analyzePronunciation low nfd genFeedback language
        (Except.error ()) expectedText r).details.accuracy =
      (analyzePronunciation low nfd genFeedback language
        (Except.error ()) expectedText r).score := by
  simp only [analyzePronunciation]
  refine ⟨by linarith, by linarith, trivial, trivial, trivial⟩

theorem C7_analyzePronunciation_fallback_witness :
    3 / 4 ≤ (analyzePronunciation id id (fun _ _ _ _ => []) "yo"
        (Except.error ()) "bawo ni" (1 / 2)).score ∧
    (analyzePronunciation id id (fun _ _ _ _ => []) "yo"
        (Except.error ()) "bawo ni" (1 / 2)).score < 19 / 20 ∧
    (analyzePronunciation id id (fun _ _ _ _ => []) "yo"
        (Except.error ()) "bawo ni" (1 / 2)).details.fluency =
      (analyzePronunciation id id (fun _ _ _ _ => []) "yo"
        (Except.error ()) "bawo ni" (1 / 2)).score * (19 / 20) ∧
    (analyzePronunciation id id (fun _ _ _ _ => []) "yo"
        (Except.error ()) "bawo ni" (1 / 2)).details.completeness = 9 / 10 ∧
    (analyzePronunciation id id (fun _ _ _ _ => []) "yo"
        (Except.error ()) "bawo ni" (1 / 2)).details.accuracy =
      (analyzePronunciation id id (fun _ _ _ _ => []) "yo"
        (Except.error ()) "bawo ni" (1 / 2)).score :=
  C7_analyzePronunciation_fallback id id (fun _ _ _ _ => []) "yo" "bawo ni"
    (1 / 2) (by norm_num) (by norm_num)

/-! ### Claim C4: endpoint whitelisting in the spitch-proxy handler -/

/-- C4 counterexample: a non-OPTIONS request with a non-whitelisted
endpoint is answered with a 500 "Configuration error" response, not with
the claimed 400 "Invalid endpoint", when `SPITCH_API_KEY` is absent from
the environment, because the live handler checks the key before validating
the endpoint.  (No upstream request is made either way.) -/
theorem C4_counterexample :
    (spitchProxyHandler "POST" "" none
        (Except.error () : Except Unit (UpstreamResp Unit))).status = 500 ∧
    ¬ (spitchProxyHandler "POST" "" none
        (Except.error () : Except Unit (UpstreamResp Unit))).status = 400 ∧
    (spitchProxyHandler "POST" "" none
        (Except.error () : Except Unit (UpstreamResp Unit))).body =
      ProxyBody.errJson "Configuration error" ∧
    (spitchProxyHandler "POST" "" none
        (Except.error () : Except Unit (UpstreamResp Unit))).calledUpstream = false := by
  refine ⟨by decide, by decide, by decide, by decide⟩

/-- C4 (amended): for every non-OPTIONS request whose endpoint parameter is
not one of the four whitelisted sub-paths, the handler never issues an
upstream request, and — provided `SPITCH_API_KEY` is configured to a
non-empty value (the source guards with a truthiness test, so an empty
value counts as missing) — responds with HTTP 400 and an
"Invalid endpoint" JSON error body. -/
theorem C4_invalid_endpoint {α : Type} (method endpoint k : String)
    (apiKey : Option String) (upstream : Except Unit (UpstreamResp α))
    (hk : k ≠ "") (hm : method ≠ "OPTIONS")
    (he : ¬ endpoint ∈ allowedEndpoints) :
    spitchProxyHandler method endpoint (some k) upstream =
      ⟨400, some "application/json", ProxyBody.errJson "Invalid endpoint", false⟩ ∧
    (spitchProxyHandler method endpoint apiKey upstream).calledUpstream = false := by
  constructor
  · simp [spitchProxyHandler, jsStrFalsy, hm, he, hk]
  · cases apiKey with
    | none => simp [spitchProxyHandler, jsStrFalsy, hm]
    | some key =>
      by_cases hkey : key = ""
      · simp [spitchProxyHandler, jsStrFalsy, hm, hkey]
      · simp [spitchProxyHandler, jsStrFalsy, hm, he, hkey]

theorem C4_invalid_endpoint_witness :
    spitchProxyHandler "POST" "" (some "key")
        (Except.error () : Except Unit (UpstreamResp Unit)) =
      ⟨400, some "application/json", ProxyBody.errJson "Invalid endpoint", false⟩ ∧
    (spitchProxyHandler "POST" "" none
        (Except.error () : Except Unit (UpstreamResp Unit))).calledUpstream = false :=
  C4_invalid_endpoint "POST" "" "key" none
    (Except.error () : Except Unit (UpstreamResp Unit)) (by decide) (by decide) (by decide)

/-! ### Claim C8: success-response relaying in the spitch-proxy handler -/

/-- C8 counterexample: a 2xx upstream response whose content type includes
`application/json` but whose body is not valid JSON (`response.json()`
throws) is answered with a 500 "Proxy error" response, not the claimed
passthrough with status 200. -/
theorem C8_counterexample :
    (spitchProxyHandler "POST" "/v1/speech" (some "key")
        (Except.ok
          ({ status := 200
             contentType := some "application/json"
             bodyBytes := []
             bodyText := "not json"
             bodyJson := none }) :
          Except Unit (UpstreamResp Unit))).status = 500 ∧
    ¬ (spitchProxyHandler "POST" "/v1/speech" (some "key")
        (Except.ok
          ({ status := 200
             contentType := some "application/json"
             bodyBytes := []
             bodyText := "not json"
             bodyJson := none }) :
          Except Unit (UpstreamResp Unit))).status = 200 := by
  refine ⟨by decide, by decide⟩

/-- C8 (amended): for a 2xx upstream response reached through a valid
request (non-OPTIONS, whitelisted endpoint, non-empty API key), the
handler returns status 200 and relays the body by upstream content type —
raw bytes with the upstream content type when it includes "audio",
re-serialized JSON when it includes "application/json" and the body parses
as JSON, and text with content type defaulting to "text/plain" when the
upstream header is absent or empty (the source uses a truthiness default)
otherwise.  (A 2xx JSON-typed response whose body fails to parse yields a
500 proxy error instead, per the counterexample.) -/
theorem C8_success_dispatch {α : Type} (method endpoint k : String)
    (resp : UpstreamResp α) (hk : k ≠ "") (hm : method ≠ "OPTIONS")
    (he : endpoint ∈ allowedEndpoints)
    (hs1 : 200 ≤ resp.status) (hs2 : resp.status ≤ 299) :
    (optIncludes resp.contentType "audio" = true →
      spitchProxyHandler method endpoint (some k) (Except.ok resp) =
        ⟨200, resp.contentType, ProxyBody.audioBytes resp.bodyBytes, true⟩) ∧
    (optIncludes resp.contentType "audio" = false →
      optIncludes resp.contentType "application/json" = true →
      ∀ j, resp.bodyJson = some j →
        spitchProxyHandler method endpoint (some k) (Except.ok resp) =
          ⟨200, some "application/json", ProxyBody.jsonVal j, true⟩) ∧
    (optIncludes resp.contentType "audio" = false →
      optIncludes resp.contentType "application/json" = false →
      spitchProxyHandler method endpoint (some k) (Except.ok resp) =
        ⟨200, some (jsOrDefault resp.contentType "text/plain"),
          ProxyBody.textBody resp.bodyText, true⟩) := by
  refine ⟨?_, ?_, ?_⟩
  · intro ha
    simp [spitchProxyHandler, jsStrFalsy, hk, hm, he, ha, hs1, hs2, Nat.not_lt.mpr]
  · intro ha hj j hbody
    simp [spitchProxyHandler, jsStrFalsy, hk, hm, he, ha, hj, hbody]
    all_goals omega
  · intro ha hj
    simp [spitchProxyHandler, jsStrFalsy, hk, hm, he, ha, hj]
    all_goals omega

theorem C8_success_dispatch_witness :
    spitchProxyHandler "POST" "/v1/speech" (some "key")
        (Except.ok
          ({ status := 200
             contentType := some "audio/wav"
             bodyBytes := [1, 2, 3]
             bodyText := ""
             bodyJson := none }) :
          Except Unit (UpstreamResp Unit)) =
      ⟨200, some "audio/wav", ProxyBody.audioBytes [1, 2, 3], true⟩ :=
  (C8_success_dispatch "POST" "/v1/speech" "key"
    { status := 200
      contentType := some "audio/wav"
      bodyBytes := [1, 2, 3]
      bodyText := ""
      bodyJson := none }
    (by decide) (by decide) (by decide) (by decide) (by decide)).1 (by decide)

/-! ### Claim C6: retryWithBackoff -/

theorem retryLoop_calls_le :
    ∀ (d : ℕ) {α : Type} (fn : ℕ → Except String α) (n i : ℕ), n - i ≤ d →
      (retryLoop fn n i).calls ≤ n - i := by
  intro d
  induction d with
  | zero =>
    intro α fn n i h
    have hin : ¬ i < n := by omega
    rw [retryLoop]
    simp [hin]
  | succ d ih =>
    intro α fn n i h
    by_cases hin : i < n
    · rw [retryLoop, dif_pos hin]
      cases hfi : fn i with
      | ok a =>
        simp
        omega
      | error e =>
        by_cases hl : i = n - 1
        · simp [hl]
          omega
        · simp only [if_neg hl]
          have hrec := ih fn n (i + 1) (by omega)
          simp
          omega
    · rw [retryLoop, dif_neg hin]
      simp

theorem retryLoop_calls_pos {α : Type} (fn : ℕ → Except String α) (n i : ℕ)
    (hin : i < n) : 1 ≤ (retryLoop fn n i).calls := by
  rw [retryLoop, dif_pos hin]
  cases hfi : fn i with
  | ok a => simp
  | error e =>
    by_cases hl : i = n - 1
    · simp [hl]
    · simp [hl]

theorem retryLoop_first_success :
    ∀ (d : ℕ) {α : Type} (fn : ℕ → Except String α) (n i k : ℕ) (a : α),
      n - i ≤ d → i ≤ k → k < n →
      (∀ j, i ≤ j → j < k → ∃ e, fn j = Except.error e) →
      fn k = Except.ok a →
      (retryLoop fn n i).result = Except.ok a ∧
      (retryLoop fn n i).calls = k + 1 - i := by
  intro d
  induction d with
  | zero =>
    intro α fn n i k a hd hik hkn hfail hok
    omega
  | succ d ih =>
    intro α fn n i k a hd hik hkn hfail hok
    have hin : i < n := by omega
    rw [retryLoop, dif_pos hin]
    by_cases hik' : i = k
    · subst hik'
      rw [hok]
      simp
    · obtain ⟨e, hfe⟩ := hfail i le_rfl (by omega)
      rw [hfe]
      have hl : ¬ i = n - 1 := by omega
      simp only [if_neg hl]
      have hrec := ih fn n (i + 1) k a (by omega) (by omega) hkn
        (fun j hj1 hj2 => hfail j (by omega) hj2) hok
      exact ⟨hrec.1, by omega⟩

theorem retryLoop_all_fail :
    ∀ (d : ℕ) {α : Type} (fn : ℕ → Except String α) (n i : ℕ) (e : String),
      n - i ≤ d → i < n →
      (∀ j, i ≤ j → j < n → ∃ x, fn j = Except.error x) →
      fn (n - 1) = Except.error e →
      (retryLoop fn n i).result = Except.error e ∧
      (retryLoop fn n i).calls = n - i := by
  intro d
  induction d with
  | zero =>
    intro α fn n i e hd hin hfail hlast
    omega
  | succ d ih =>
    intro α fn n i e hd hin hfail hlast
    rw [retryLoop, dif_pos hin]
    by_cases hl : i = n - 1
    · have hfe : fn i = Except.error e := by rw [hl]; exact hlast
      rw [hfe]
      simp [hl]
      omega
    · obtain ⟨x, hfx⟩ := hfail i le_rfl (by omega)
      rw [hfx]
      simp only [if_neg hl]
      have hrec := ih fn n (i + 1) e (by omega) (by omega)
        (fun j hj1 hj2 => hfail j (by omega) hj2) hlast
      exact ⟨hrec.1, by omega⟩

set_option maxRecDepth 4000 in
theorem retryLoop_delays :
    ∀ (d : ℕ) {α : Type} (fn : ℕ → Except String α) (n i : ℕ), n - i ≤ d →
      (retryLoop fn n i).delays =
        (List.range ((retryLoop fn n i).calls - 1)).map
          (fun t => 2 ^ (i + t) * 1000) := by
  intro d
  induction d with
  | zero =>
    intro α fn n i h
    have hin : ¬ i < n := by omega
    rw [retryLoop]
    simp [hin]
  | succ d ih =>
    intro α fn n i h
    by_cases hin : i < n
    · rw [retryLoop, dif_pos hin]
      cases hfi : fn i with
      | ok a => simp
      | error e =>
        by_cases hl : i = n - 1
        · simp [hl]
        · simp only [if_neg hl]
          have hd := ih fn n (i + 1) (by omega)
          have hpos : 1 ≤ (retryLoop fn n (i + 1)).calls :=
            retryLoop_calls_pos fn n (i + 1) (by omega)
          obtain ⟨m, hm⟩ : ∃ m, (retryLoop fn n (i + 1)).calls = m + 1 :=
            ⟨(retryLoop fn n (i + 1)).calls - 1, by omega⟩
          rw [hd, hm]
          simp only [Nat.add_sub_cancel]
          rw [List.range_succ_eq_map]
          simp only [List.map_cons, List.map_map]
          congr 1
          apply List.map_congr_left
          intro t _
          simp only [Function.comp]
          have harith : i + 1 + t = i + (t + 1) := by omega
          rw [harith]
    · rw [retryLoop, dif_neg hin]
      simp

theorem getD_map_range (f : ℕ → ℕ) (m q : ℕ) (hq : q < m) :
    ((List.range m).map f).getD q 0 = f q := by
  rw [List.getD_eq_getElem _ _ (by simp [hq])]
  simp

/-- C6: `retryWithBackoff fn n` (for `n ≥ 1`) invokes `fn` at most `n`
times, returns the value of the first successful invocation, sleeps
`2^t * 1000` ms before retry `t+1` (each delay twice the previous one),
and when all `n` invocations fail it rethrows the error of the final
invocation. -/
theorem C6_retryWithBackoff_spec {α : Type} (fn : ℕ → Except String α)
    (n : ℕ) (hn : 1 ≤ n) :
    (retryWithBackoff fn n).calls ≤ n ∧
    (∀ k a, k < n → (∀ j, j < k → ∃ e, fn j = Except.error e) →
      fn k = Except.ok a →
      (retryWithBackoff fn n).result = Except.ok a ∧
      (retryWithBackoff fn n).calls = k + 1) ∧
    (retryWithBackoff fn n).delays =
      (List.range ((retryWithBackoff fn n).calls - 1)).map
        (fun t => 2 ^ t * 1000) ∧
    (∀ q, q + 1 < (retryWithBackoff fn n).delays.length →
      (retryWithBackoff fn n).delays.getD (q + 1) 0 =
        2 * (retryWithBackoff fn n).delays.getD q 0) ∧
    (∀ e, (∀ j, j < n → ∃ x, fn j = Except.error x) →
      fn (n - 1) = Except.error e →
      (retryWithBackoff fn n).result = Except.error e ∧
      (retryWithBackoff fn n).calls = n) := by
  unfold retryWithBackoff
  refine ⟨?_, ?_, ?_, ?_, ?_⟩
  · have h := retryLoop_calls_le n fn n 0 (by omega)
    simpa using h
  · intro k a hk hfail hok
    have h := retryLoop_first_success n fn n 0 k a (by omega) (by omega) hk
      (fun j _ hj2 => hfail j hj2) hok
    simpa using h
  · have h := retryLoop_delays n fn n 0 (by omega)
    simpa using h
  · intro q hq
    have hd := retryLoop_delays n fn n 0 (by omega)
    rw [hd] at hq ⊢
    rw [List.length_map, List.length_range] at hq
    rw [getD_map_range _ _ _ (by omega), getD_map_range _ _ _ (by omega)]
    ring
  · intro e hfail hlast
    have h := retryLoop_all_fail n fn n 0 e (by omega) (by omega)
      (fun j _ hj2 => hfail j hj2) hlast
    simpa using h

theorem C6_retryWithBackoff_spec_witness :
    (retryWithBackoff
        (fun i => if i = 1 then Except.ok 42 else Except.error "boom") 3).result =
      Except.ok 42 ∧
    (retryWithBackoff
        (fun i => if i = 1 then Except.ok 42 else Except.error "boom") 3).calls = 2 := by
  have h := (C6_retryWithBackoff_spec
      (fun i => if i = 1 then Except.ok 42 else Except.error "boom") 3
      (by norm_num)).2.1 1 42 (by norm_num)
    (fun j hj => ⟨"boom", by
      have hj0 : j = 0 := by omega
      subst hj0
      simp⟩)
    (by simp)
  simpa using h

/-! ### Claim C10: the audio cache is bounded by 50 entries -/

theorem generateSpeechStep_length_le {β : Type} (cache : List (String × β))
    (k : String) (v : β) (h : cache.length ≤ 50) :
    (generateSpeechStep cache k v).length ≤ 50 := by
  unfold generateSpeechStep
  by_cases hhit : cache.any (fun p => p.1 == k) = true
  · simp [hhit, h]
  · simp only [hhit, if_false, Bool.false_eq_true]
    simp only [mapSet, hhit, if_false, Bool.false_eq_true]
    by_cases hlen : 50 < (cache ++ [(k, v)]).length
    · simp only [if_pos hlen]
      simp [List.length_tail]
      omega
    · simp only [if_neg hlen]
      simp at hlen ⊢
      omega

theorem foldl_generateSpeechStep_le {β : Type} :
    ∀ (calls : List (String × β)) (c : List (String × β)), c.length ≤ 50 →
      (calls.foldl (fun acc p => generateSpeechStep acc p.1 p.2) c).length ≤ 50 := by
  intro calls
  induction calls with
  | nil =>
    intro c h
    simpa using h
  | cons p calls ih =>
    intro c h
    rw [List.foldl_cons]
    exact ih _ (generateSpeechStep_length_le c p.1 p.2 h)

/-- C10: one completed `generateSpeech` call never leaves more than 50
entries in the audio cache (a fresh insertion that raises the size above 50
evicts the oldest entry first), so `audioCache.size ≤ 50` is an invariant
of every sequence of `generateSpeech` calls starting from the empty
cache. -/
theorem C10_audioCache_bounded {β : Type} (cache : List (String × β))
    (k : String) (v : β) (h : cache.length ≤ 50) :
    (generateSpeechStep cache k v).length ≤ 50 ∧
    ∀ calls : List (String × β),
      (calls.foldl (fun acc p => generateSpeechStep acc p.1 p.2)
        ([] : List (String × β))).length ≤ 50 :=
  ⟨generateSpeechStep_length_le cache k v h,
   fun calls => foldl_generateSpeechStep_le calls [] (by simp)⟩

theorem C10_audioCache_bounded_witness :
    (generateSpeechStep [(("x" : String), (0 : ℕ))] "y" 1).length ≤ 50 ∧
    ([(("a" : String), (0 : ℕ)), ("b", 1)].foldl
      (fun acc p => generateSpeechStep acc p.1 p.2)
      ([] : List (String × ℕ))).length ≤ 50 := by
  have h := C10_audioCache_bounded [(("x" : String), (0 : ℕ))] "y" 1 (by simp)
  exact ⟨h.1, h.2 [("a", 0), ("b", 1)]⟩

end AfriLingo
